import Mathlib

/-!
Verification of the relambda Unlambda compiler and stack VM.

A shallow embedding of the core of the `relambda` interpreter
(`src/lib.rs`, `src/parse.rs`): the value model, the opcode set and fixed
microcode blocks, the compiler, the VM loop with its return-stack
auto-return check, and the per-combinator `invoke` handler.

Conventions of the embedding:
* Rust `Vec` stacks become Lean `List`s with the *head* as the top of the
  stack (Rust pushes/pops at the end; we push/pop at the head).
* `Rc<Function>` sharing is irrelevant to the semantics modelled here, so
  function values are plain inductive values.
* Rust panics (`panic!`, out-of-bounds indexing, `unwrap` on `None`,
  `usize` subtraction overflow in a debug build) are modelled as
  `Except.error`.
* Standard input is modelled as a `List Char` of the code points that
  remain to be read; end of input (or a decode error, which the source
  treats identically via `.and_then(|v| v.ok())`) is the empty list.
  Standard output is a `List Char` accumulator.
* The VM loop `run_vm` is a non-terminating loop in the source; it is
  modelled with explicit fuel (`runLoop`), where running out of fuel is
  the distinguished result `Except.ok none`.
-/

namespace Relambda

/-- Combinators, from `parse.rs` (`enum Combinator`). -/
inductive Combinator where
  | I | K | S | V | D | C | E
  | Read
  | Reprint
  | Compare (c : Char)
  | Dot (c : Char)
deriving DecidableEq, Repr

mutual

/-- Function values, from `lib.rs` (`enum Function`).  `C1` carries a full
copy of the VM state at capture time. -/
inductive Function where
  | I
  | K
  | K1 (v : Function)
  | S
  | S1 (v : Function)
  | S2 (v1 v2 : Function)
  | V
  | D
  | D1 (e : Expression)
  | C
  | C1 (state : VmState)
  | E
  | Read
  | Reprint
  | Compare (c : Char)
  | Dot (c : Char)

/-- Promise payloads, from `lib.rs` (`enum Expression`). -/
inductive Expression where
  | Promise (a : Nat)
  | Function (f : Function)
  | Application (f g : Function)

/-- The VM state, from `lib.rs` (`struct VmState`): operand stack, return
stack of `(to, from)` pairs, program counter, and the `cur_char` input
latch.  (A plain inductive rather than a structure because it is mutually
recursive with `Function` through `C1`.) -/
inductive VmState where
  | mk (stack : List Function) (rstack : List (Nat × Nat)) (pc : Nat)
       (curChar : Option Char)

end

/-- Operand stack of a VM state. -/
def VmState.stack : VmState → List Function
  | .mk s _ _ _ => s

/-- Return stack of a VM state. -/
def VmState.rstack : VmState → List (Nat × Nat)
  | .mk _ r _ _ => r

/-- Program counter of a VM state. -/
def VmState.pc : VmState → Nat
  | .mk _ _ p _ => p

/-- The `cur_char` latch of a VM state. -/
def VmState.curChar : VmState → Option Char
  | .mk _ _ _ c => c

/-- Embedding of `Function::from_combinator`. -/
def Function.from_combinator : Combinator → Function
  | .I => .I
  | .K => .K
  | .S => .S
  | .V => .V
  | .D => .D
  | .C => .C
  | .E => .E
  | .Read => .Read
  | .Reprint => .Reprint
  | .Compare ch => .Compare ch
  | .Dot ch => .Dot ch

/-- The Rust source compares function values against the unit variant
`Function::D` with structural equality (`==`); that comparison is exactly
"is the `D` constructor". -/
def Function.isD : Function → Bool
  | .D => true
  | _ => false

theorem Function.isD_iff (f : Function) : f.isD = true ↔ f = .D := by
  cases f <;> simp [Function.isD]

/-- Opcodes, from `lib.rs` (`enum OpCode`). -/
inductive OpCode where
  | Placeholder
  | PushImmediate (c : Combinator)
  | Swap
  | Rot
  | CheckSuspend (offset : Nat)
  | CheckDynamicSuspend (offset : Nat)
  | Invoke
  | Finish
deriving DecidableEq, Repr

def S2_START : Nat := 0
def S2_LEN : Nat := 5
def S2_END : Nat := S2_START + S2_LEN

/-- The S2 microcode block. -/
def S2_CODE : List OpCode :=
  [.Invoke, .CheckDynamicSuspend 4, .Rot, .Invoke, .Invoke]

def D1_PROMISE_START : Nat := S2_END
def D1_PROMISE_LEN : Nat := 2
def D1_PROMISE_END : Nat := D1_PROMISE_START + D1_PROMISE_LEN

/-- The D1-promise-forcing microcode block. -/
def D1_PROMISE_CODE : List OpCode := [.Swap, .Invoke]

def D1_APPLICATION_START : Nat := D1_PROMISE_END
def D1_APPLICATION_LEN : Nat := 3
def D1_APPLICATION_END : Nat := D1_APPLICATION_START + D1_APPLICATION_LEN

/-- The D1-application microcode block. -/
def D1_APPLICATION_CODE : List OpCode := [.Invoke, .Swap, .Invoke]

/-- Embedding of `VmState::push_rstack`.  The Rust code indexes `rstack[len - 1]`, which
panics on an empty return stack; that case is `none` here. -/
def push_rstack (rstack : List (Nat × Nat)) (to_ from_ : Nat) :
    Option (List (Nat × Nat)) :=
  match rstack with
  | [] => none
  | (thenTo, thenFrom) :: rest =>
    if thenFrom = to_ then some ((thenTo, from_) :: rest)
    else some ((to_, from_) :: (thenTo, thenFrom) :: rest)

/-- The ambient execution state: the VM state plus the modelled stdin
(code points remaining) and stdout (characters written so far). -/
structure Exec where
  vm : VmState
  input : List Char
  output : List Char

/-- The trailing `match fun.borrow()` at the end of `invoke`: every branch
other than the microcode-redirecting ones (`S2`, `D1`-promise,
`D1`-application) and the retry-`Invoke` ones (`C`, `Read`, `Reprint`,
`D1`-function) advances the program counter by one. -/
def invokeAdvance (fn : Function) (vm : VmState) : VmState :=
  match fn with
  | .S2 _ _ | .D1 (.Promise _) | .D1 (.Application _ _) => vm
  | .C | .Read | .Reprint | .D1 (.Function _) => vm
  | _ => match vm with
         | .mk s r pc cc => .mk s r (pc + 1) cc

/-- Embedding of `invoke` from `lib.rs`: pop the argument and the function from the
operand stack and dispatch on the function.  Returns `some f` in the first
component when the program terminates (`E`), and the updated execution
state.  Branches that push return-stack frames use `push_rstack`; its
`none` (empty return stack, a panic in the source) propagates as an
error. -/
def invoke (code : List OpCode) (e : Exec) : Except String (Option Function × Exec) :=
  match e with
  | ⟨.mk stack rstack pc cc, inp, out⟩ =>
    match stack with
    | arg :: fn :: rest =>
      match fn with
      | .I =>
        .ok (none, ⟨invokeAdvance fn (.mk (arg :: rest) rstack pc cc), inp, out⟩)
      | .K =>
        .ok (none, ⟨invokeAdvance fn (.mk (.K1 arg :: rest) rstack pc cc), inp, out⟩)
      | .K1 v =>
        .ok (none, ⟨invokeAdvance fn (.mk (v :: rest) rstack pc cc), inp, out⟩)
      | .S =>
        .ok (none, ⟨invokeAdvance fn (.mk (.S1 arg :: rest) rstack pc cc), inp, out⟩)
      | .S1 v =>
        .ok (none, ⟨invokeAdvance fn (.mk (.S2 v arg :: rest) rstack pc cc), inp, out⟩)
      | .S2 v1 v2 =>
        -- pushes v2, arg, the pre-built promise, v1, arg (so arg is on top),
        -- then jumps into the S2 microcode.
        match push_rstack rstack (pc + 1) S2_END with
        | none => .error "push_rstack: empty return stack"
        | some r' =>
          .ok (none, ⟨invokeAdvance fn
            (.mk (arg :: v1 :: .D1 (.Application v2 arg) :: arg :: v2 :: rest)
              r' S2_START cc), inp, out⟩)
      | .V =>
        .ok (none, ⟨invokeAdvance fn (.mk (.V :: rest) rstack pc cc), inp, out⟩)
      | .D =>
        .ok (none, ⟨invokeAdvance fn
          (.mk (.D1 (.Function arg) :: rest) rstack pc cc), inp, out⟩)
      | .D1 (.Promise a) =>
        -- The source evaluates `code[*at - 1]` (usize), so `at = 0` is an
        -- arithmetic-overflow panic and an out-of-range index is a panic;
        -- `*at - 2 + offset` likewise panics when `at < 2`.
        if a = 0 then .error "attempt to subtract with overflow"
        else
          match code[a - 1]? with
          | some (.CheckSuspend offset) =>
            if a < 2 then .error "attempt to subtract with overflow"
            else
              match push_rstack rstack (pc + 1) D1_PROMISE_END with
              | none => .error "push_rstack: empty return stack"
              | some r₁ =>
                match push_rstack r₁ D1_PROMISE_START (a - 2 + offset) with
                | none => .error "push_rstack: empty return stack"
                | some r₂ =>
                  .ok (none, ⟨invokeAdvance fn
                    (.mk (arg :: rest) r₂ a cc), inp, out⟩)
          | some _ => .error "promise does not point to a CheckSuspend opcode"
          | none => .error "index out of bounds"
      | .D1 (.Function f) =>
        .ok (none, ⟨invokeAdvance fn (.mk (arg :: f :: rest) rstack pc cc), inp, out⟩)
      | .D1 (.Application operator operand) =>
        match push_rstack rstack (pc + 1) D1_APPLICATION_END with
        | none => .error "push_rstack: empty return stack"
        | some r' =>
          .ok (none, ⟨invokeAdvance fn
            (.mk (operand :: operator :: arg :: rest) r' D1_APPLICATION_START cc),
            inp, out⟩)
      | .C =>
        -- the snapshot is taken after arg and fn have been popped
        .ok (none, ⟨invokeAdvance fn
          (.mk (.C1 (.mk rest rstack pc cc) :: arg :: rest) rstack pc cc), inp, out⟩)
      | .C1 (.mk s r p _) =>
        -- stack, rstack and pc are replaced from the snapshot; cur_char is not
        .ok (none, ⟨invokeAdvance fn (.mk (arg :: s) r p cc), inp, out⟩)
      | .E => .ok (some arg, ⟨.mk rest rstack pc cc, inp, out⟩)
      | .Read =>
        match inp with
        | ch :: tl =>
          .ok (none, ⟨invokeAdvance fn
            (.mk (.I :: arg :: rest) rstack pc (some ch)), tl, out⟩)
        | [] =>
          .ok (none, ⟨invokeAdvance fn
            (.mk (.V :: arg :: rest) rstack pc none), [], out⟩)
      | .Reprint =>
        let f := match cc with
                 | some ch => Function.Dot ch
                 | none => Function.V
        .ok (none, ⟨invokeAdvance fn (.mk (f :: arg :: rest) rstack pc cc), inp, out⟩)
      | .Compare ch =>
        let f := if cc = some ch then Function.I else Function.V
        .ok (none, ⟨invokeAdvance fn (.mk (f :: arg :: rest) rstack pc cc), inp, out⟩)
      | .Dot ch =>
        .ok (none, ⟨invokeAdvance fn (.mk (arg :: rest) rstack pc cc), inp,
          out ++ [ch]⟩)
    | _ => .error "stack underflow in invoke"

/-- One-step execution result of the VM loop body. -/
inductive StepResult where
  | next (e : Exec)
  | done (f : Function)

/-- Execution of a single already-fetched opcode — the first `match opcode`
of the loop body of `run_vm`.  The program counter is modified only by
`CheckSuspend`, `CheckDynamicSuspend` and the `invoke` branches that manage
it themselves. -/
def execOpcode (code : List OpCode) (op : OpCode) (e : Exec) :
    Except String StepResult :=
  match e with
  | ⟨.mk stack rstack pc cc, inp, out⟩ =>
    match op with
    | .Placeholder => .error "placeholder not replaced during compilation"
    | .PushImmediate c =>
      .ok (.next ⟨.mk (.from_combinator c :: stack) rstack pc cc, inp, out⟩)
    | .Rot =>
      match stack with
      | fst :: snd :: thr :: rest =>
        .ok (.next ⟨.mk (snd :: thr :: fst :: rest) rstack pc cc, inp, out⟩)
      | _ => .error "stack underflow in Rot"
    | .Swap =>
      match stack with
      | fst :: snd :: rest =>
        .ok (.next ⟨.mk (snd :: fst :: rest) rstack pc cc, inp, out⟩)
      | _ => .error "stack underflow in Swap"
    | .CheckSuspend offset =>
      match stack with
      | top :: rest =>
        if top.isD then
          .ok (.next ⟨.mk (.D1 (.Promise (pc + 1)) :: rest) rstack (pc + offset) cc,
            inp, out⟩)
        else
          .ok (.next ⟨.mk (top :: rest) rstack (pc + 1) cc, inp, out⟩)
      | [] => .error "stack underflow in CheckSuspend"
    | .CheckDynamicSuspend offset =>
      -- stack is top→ (operator) (promise of operand) (operand parts)
      match stack with
      | operator :: stack₁ =>
        if operator.isD then
          match stack₁ with
          | prom :: _ :: _ :: rest =>
            .ok (.next ⟨.mk (prom :: rest) rstack (pc + offset) cc, inp, out⟩)
          | _ => .error "stack underflow in CheckDynamicSuspend"
        else
          match stack₁ with
          | _ :: rest =>
            .ok (.next ⟨.mk (operator :: rest) rstack (pc + 1) cc, inp, out⟩)
          | _ => .error "stack underflow in CheckDynamicSuspend"
      | [] => .error "stack underflow in CheckDynamicSuspend"
    | .Invoke =>
      match invoke code ⟨.mk stack rstack pc cc, inp, out⟩ with
      | .error msg => .error msg
      | .ok (some ret, _) => .ok (.done ret)
      | .ok (none, e') => .ok (.next e')
    | .Finish =>
      match stack with
      | v :: _ => .ok (.done v)
      | [] => .error "stack underflow at Finish"

/-- The second `match opcode` of the loop body of `run_vm`: every opcode
that does not manage its own program counter advances it by one. -/
def advancePc (op : OpCode) (vm : VmState) : VmState :=
  match op with
  | .Invoke | .CheckSuspend _ | .CheckDynamicSuspend _ => vm
  | _ => match vm with
         | .mk s r pc cc => .mk s r (pc + 1) cc

/-- The auto-return check at the bottom of the `run_vm` loop: if the
program counter equals the `from` of the top return-stack frame, pop the
frame and jump to its `to`.  The source indexes `rstack[len - 1]`, a panic
on an empty return stack. -/
def autoReturn (vm : VmState) : Except String VmState :=
  match vm with
  | .mk s ((to_, from_) :: rrest) pc cc =>
    if pc = from_ then .ok (.mk s rrest to_ cc)
    else .ok (.mk s ((to_, from_) :: rrest) pc cc)
  | .mk _ [] _ _ => .error "empty return stack at auto-return check"

/-- Fetch and execute one opcode and apply the pc-advance rule, but stop
short of the auto-return check.  Fetching `code[pc]` out of range is a
panic in the source. -/
def execPhase (code : List OpCode) (e : Exec) : Except String StepResult :=
  match code[e.vm.pc]? with
  | none => .error "program counter out of bounds"
  | some op =>
    match execOpcode code op e with
    | .error msg => .error msg
    | .ok (.done f) => .ok (.done f)
    | .ok (.next e₁) => .ok (.next { e₁ with vm := advancePc op e₁.vm })

/-- One full iteration of the `run_vm` loop: fetch, execute, advance,
auto-return. -/
def step (code : List OpCode) (e : Exec) : Except String StepResult :=
  match execPhase code e with
  | .error msg => .error msg
  | .ok (.done f) => .ok (.done f)
  | .ok (.next e₁) =>
    match autoReturn e₁.vm with
    | .error msg => .error msg
    | .ok vm' => .ok (.next { e₁ with vm := vm' })

/-- The initial execution state of `run_vm`: empty operand stack, the
bottom sentinel `(len(code), len(code))` on the return stack, the program
counter at the entry point, and an empty `cur_char` latch. -/
def initExec (code : List OpCode) (entry_point : Nat) (input : List Char) : Exec :=
  ⟨.mk [] [(code.length, code.length)] entry_point none, input, []⟩

/-- The `run_vm` loop, with fuel; `ok none` means the fuel ran out. -/
def runLoop (code : List OpCode) : Nat → Exec → Except String (Option Function)
  | 0, _ => .ok none
  | fuel + 1, e =>
    match step code e with
    | .error msg => .error msg
    | .ok (.done f) => .ok (some f)
    | .ok (.next e') => runLoop code fuel e'

/-- Embedding of `run_vm` from `lib.rs`, with fuel and explicit input. -/
def run_vm (code : List OpCode) (entry_point : Nat) (input : List Char)
    (fuel : Nat) : Except String (Option Function) :=
  runLoop code fuel (initExec code entry_point input)

/-- Syntax trees, from `parse.rs` (`enum SyntaxTree`; the `Application`
struct's two boxed children are inlined as two constructor arguments). -/
inductive SyntaxTree where
  | Combinator (c : Combinator)
  | Application (func arg : SyntaxTree)
deriving DecidableEq, Repr

/-- Embedding of `compile` from `lib.rs`: append the code for a subtree to `code`.
The `Placeholder` reserved before the argument code is patched to
`CheckSuspend(next_position - placeholder_position)` once the argument
code and its `Invoke` have been emitted.  (The Rust function returns
`Result` but constructs no error.) -/
def compile : SyntaxTree → List OpCode → List OpCode
  | .Combinator c, code => code ++ [.PushImmediate c]
  | .Application func arg, code =>
    let code₁ := compile func code
    let placeholder_position := code₁.length
    let code₂ := compile arg (code₁ ++ [.Placeholder])
    let code₃ := code₂ ++ [.Invoke]
    let next_position := code₃.length
    code₃.set placeholder_position
      (.CheckSuspend (next_position - placeholder_position))

/-- Embedding of `compile_toplevel` from `lib.rs`: the three fixed microcode blocks,
then the user code, then `Finish`; the entry point is the first
user-compiled opcode. -/
def compile_toplevel (st : SyntaxTree) : List OpCode × Nat :=
  let code := S2_CODE ++ D1_PROMISE_CODE ++ D1_APPLICATION_CODE
  let entry_point := code.length
  let code := compile st code
  (code ++ [.Finish], entry_point)

/-- A character together with its (line, column) position, from
`parse.rs` (`struct CharPos`). -/
structure CharPos where
  item : Char
  position : Nat × Nat
deriving DecidableEq, Repr

/-- Embedding of `CharPosIterator` from `parse.rs`, as a function from the remaining
characters and the iterator state (col, line, nl) to the emitted list. -/
def charPosIterator : List Char → Nat → Nat → Bool → List CharPos
  | [], _, _, _ => []
  | cur :: rest, col, line, nl =>
    let (col, line) := if nl then (0, line + 1) else (col, line)
    ⟨cur, (line, col)⟩ :: charPosIterator rest (col + 1) line (cur = '\n')

/-- Embedding of `read_to_newline` from `parse.rs`: drop characters up to and including
the first newline. -/
def read_to_newline : List CharPos → List CharPos
  | [] => []
  | cp :: rest => if cp.item = '\n' then rest else read_to_newline rest

/-- Embedding of `consume_whitespace` from `parse.rs`, with fuel (each iteration of the
source's loop consumes at least one character, so fuel = input length
always suffices; callers pass exactly that). -/
def consume_whitespace : Nat → List CharPos → List CharPos
  | 0, input => input
  | fuel + 1, input =>
    match input with
    | [] => input
    | cp :: rest =>
      if cp.item = '#' then consume_whitespace fuel (read_to_newline (cp :: rest))
      else if cp.item.isWhitespace then consume_whitespace fuel rest
      else input

/-- Embedding of `char::to_ascii_lowercase`. -/
def toAsciiLowercase (c : Char) : Char :=
  if 'A' ≤ c ∧ c ≤ 'Z' then Char.ofNat (c.toNat + 32) else c

/-- Embedding of `parse` from `parse.rs`, with fuel for the recursion through nested
applications (nesting depth is bounded by the input length, so
`length + 1` fuel always suffices; running out of fuel is a distinguished
error that no actual parse reaches).  Returns the parsed tree and the
remaining input. -/
def parse : Nat → List CharPos → Except String (SyntaxTree × List CharPos)
  | 0, _ => .error "parse: out of fuel"
  | fuel + 1, input =>
    let input := consume_whitespace input.length input
    match input with
    | [] => .error "unexpected EOF"
    | token :: rest =>
      let c := toAsciiLowercase token.item
      if c = 'k' then .ok (.Combinator .K, rest)
      else if c = 's' then .ok (.Combinator .S, rest)
      else if c = 'i' then .ok (.Combinator .I, rest)
      else if c = 'v' then .ok (.Combinator .V, rest)
      else if c = 'd' then .ok (.Combinator .D, rest)
      else if c = 'c' then .ok (.Combinator .C, rest)
      else if c = 'e' then .ok (.Combinator .E, rest)
      else if c = '@' then .ok (.Combinator .Read, rest)
      else if c = '|' then .ok (.Combinator .Reprint, rest)
      else if c = '?' then
        match rest with
        | c2 :: rest2 => .ok (.Combinator (.Compare c2.item), rest2)
        | [] => .error ("unexpected EOF after `.` at " ++ toString token.position)
      else if c = '.' then
        match rest with
        | c2 :: rest2 => .ok (.Combinator (.Dot c2.item), rest2)
        | [] => .error ("unexpected EOF after `.` at " ++ toString token.position)
      else if c = 'r' then .ok (.Combinator (.Dot '\n'), rest)
      else if c = '[' ∨ c = Char.ofNat 96 then  -- '[' or backtick
        match parse fuel rest with
        | .error msg => .error msg
        | .ok (func, rest₁) =>
          match parse fuel rest₁ with
          | .error msg => .error msg
          | .ok (arg, rest₂) =>
            .ok (.Application func arg, rest₂)
      else
        .error ("unexpected token `" ++ String.singleton c ++ "` at "
          ++ toString token.position)

/-- Embedding of `parse_toplevel` from `parse.rs`: parse one expression and require
that only whitespace/comments follow. -/
def parse_toplevel (input : List CharPos) : Except String SyntaxTree :=
  match parse (input.length + 1) input with
  | .error msg => .error msg
  | .ok (res, rest) =>
    match consume_whitespace rest.length rest with
    | [] => .ok res
    | cp :: _ =>
      .error ("unexpected character `" ++ String.singleton cp.item ++ "` at "
        ++ toString cp.position)

/-- Embedding of `parse_compile_run` from `lib.rs`, with explicit stdin and fuel. -/
def parse_compile_run (source : String) (input : List Char) (fuel : Nat) :
    Except String (Option Function) :=
  match parse_toplevel (charPosIterator source.data 0 0 false) with
  | .error msg => .error msg
  | .ok st =>
    let (code, entry_point) := compile_toplevel st
    run_vm code entry_point input fuel

/-! ## The TCO and promise invariants -/

/-- The TCO invariant of the return stack, for every adjacent pair of
frames: with the head of the list as the top of the stack, the `from` of
the lower frame differs from the `to` of the frame above it
(`stack[-2].from != stack[-1].to` in the source's terms, for every
adjacent pair). -/
def rstackOk : List (Nat × Nat) → Bool
  | a :: b :: rest => (b.2 != a.1) && rstackOk (b :: rest)
  | _ => true

/-- The TCO invariant restricted to the two topmost frames, as checked by
the `debug_assert_ne!` in `push_rstack`. -/
def topTwoOk : List (Nat × Nat) → Bool
  | a :: b :: _ => b.2 != a.1
  | _ => true

theorem rstackOk_topTwoOk {r : List (Nat × Nat)} (h : rstackOk r = true) :
    topTwoOk r = true := by
  match r with
  | [] => rfl
  | [_] => rfl
  | a :: b :: rest =>
    simp only [rstackOk, Bool.and_eq_true] at h
    simp [topTwoOk, h.1]

theorem rstackOk_tail {a : Nat × Nat} {r : List (Nat × Nat)}
    (h : rstackOk (a :: r) = true) : rstackOk r = true := by
  match r with
  | [] => rfl
  | b :: rest =>
    simp only [rstackOk, Bool.and_eq_true] at h
    exact h.2

/-- Lemma: `push_rstack` preserves the pairwise TCO invariant. -/
theorem push_rstack_rstackOk {r r' : List (Nat × Nat)} {to_ from_ : Nat}
    (hr : rstackOk r = true) (h : push_rstack r to_ from_ = some r') :
    rstackOk r' = true := by
  match r with
  | [] => simp [push_rstack] at h
  | (thenTo, thenFrom) :: rest =>
    simp only [push_rstack] at h
    split at h
    · obtain rfl := Option.some.inj h
      match rest with
      | [] => rfl
      | b :: rest' =>
        simp only [rstackOk, Bool.and_eq_true] at hr ⊢
        exact hr
    · obtain rfl := Option.some.inj h
      rename_i hne
      simp only [rstackOk, Bool.and_eq_true]
      exact ⟨by simpa [bne_iff_ne] using hne, hr⟩

/-- Lemma: `push_rstack` never fails on a nonempty return stack. -/
theorem push_rstack_isSome {r : List (Nat × Nat)} (h : r ≠ []) (to_ from_ : Nat) :
    ∃ r', push_rstack r to_ from_ = some r' := by
  match r with
  | [] => exact absurd rfl h
  | (a, b) :: rest =>
    simp only [push_rstack]
    split <;> exact ⟨_, rfl⟩

/-- Lemma: `push_rstack` yields a nonempty stack. -/
theorem push_rstack_ne_nil {r r' : List (Nat × Nat)} {to_ from_ : Nat}
    (h : push_rstack r to_ from_ = some r') : r' ≠ [] := by
  match r with
  | [] => simp [push_rstack] at h
  | (a, b) :: rest =>
    simp only [push_rstack] at h
    split at h <;> (obtain rfl := Option.some.inj h; simp)

/-- Well-formedness of a function value, relative to a fixed code array:
every `D1(Promise(at))` inside the value points to an address immediately
following a `CheckSuspend` opcode, and every continuation snapshot inside
the value has a well-formed stack and a return stack satisfying the TCO
invariant. -/
inductive GoodF (code : List OpCode) : Function → Prop where
  | I : GoodF code .I
  | K : GoodF code .K
  | K1 {v} : GoodF code v → GoodF code (.K1 v)
  | S : GoodF code .S
  | S1 {v} : GoodF code v → GoodF code (.S1 v)
  | S2 {v1 v2} : GoodF code v1 → GoodF code v2 → GoodF code (.S2 v1 v2)
  | V : GoodF code .V
  | D : GoodF code .D
  | D1P {a} : (∃ offset, code[a - 1]? = some (.CheckSuspend offset)) →
      GoodF code (.D1 (.Promise a))
  | D1F {f} : GoodF code f → GoodF code (.D1 (.Function f))
  | D1A {f g} : GoodF code f → GoodF code g →
      GoodF code (.D1 (.Application f g))
  | C : GoodF code .C
  | C1 {s r p c} : (∀ f ∈ s, GoodF code f) → rstackOk r = true →
      GoodF code (.C1 (.mk s r p c))
  | E : GoodF code .E
  | Read : GoodF code .Read
  | Reprint : GoodF code .Reprint
  | Compare {ch} : GoodF code (.Compare ch)
  | Dot {ch} : GoodF code (.Dot ch)

/-- Well-formedness of a VM state: every value on the operand stack is
well-formed and the return stack satisfies the pairwise TCO invariant. -/
def GoodS (code : List OpCode) (vm : VmState) : Prop :=
  (∀ f ∈ vm.stack, GoodF code f) ∧ rstackOk vm.rstack = true

theorem GoodF.K1_inv {code v} (h : GoodF code (.K1 v)) : GoodF code v := by
  cases h; assumption

theorem GoodF.S1_inv {code v} (h : GoodF code (.S1 v)) : GoodF code v := by
  cases h; assumption

theorem GoodF.S2_inv {code v1 v2} (h : GoodF code (.S2 v1 v2)) :
    GoodF code v1 ∧ GoodF code v2 := by
  cases h; exact ⟨by assumption, by assumption⟩

theorem GoodF.D1P_inv {code a} (h : GoodF code (.D1 (.Promise a))) :
    ∃ offset, code[a - 1]? = some (.CheckSuspend offset) := by
  cases h; assumption

theorem GoodF.D1F_inv {code f} (h : GoodF code (.D1 (.Function f))) :
    GoodF code f := by
  cases h; assumption

theorem GoodF.D1A_inv {code f g} (h : GoodF code (.D1 (.Application f g))) :
    GoodF code f ∧ GoodF code g := by
  cases h; exact ⟨by assumption, by assumption⟩

theorem GoodF.C1_inv {code s r p c} (h : GoodF code (.C1 (.mk s r p c))) :
    (∀ f ∈ s, GoodF code f) ∧ rstackOk r = true := by
  cases h; exact ⟨by assumption, by assumption⟩

/-- Every freshly pushed primitive combinator is well-formed. -/
theorem goodF_from_combinator (code : List OpCode) (c : Combinator) :
    GoodF code (.from_combinator c) := by
  cases c <;> constructor

/-- Here `invokeAdvance` only changes the program counter, so it preserves
state well-formedness. -/
theorem invokeAdvance_good {code fn vm} (h : GoodS code vm) :
    GoodS code (invokeAdvance fn vm) := by
  rcases vm with ⟨s, r, pc, cc⟩
  cases fn <;> first
    | exact h
    | (rename_i e; cases e <;> exact h)


@[simp] theorem Exec.vm_mk (vm : VmState) (i o : List Char) :
    (Exec.mk vm i o).vm = vm := rfl

@[simp] theorem VmState.stack_mk (s : List Function) (r : List (Nat × Nat))
    (p : Nat) (c : Option Char) : (VmState.mk s r p c).stack = s := rfl

@[simp] theorem VmState.rstack_mk (s : List Function) (r : List (Nat × Nat))
    (p : Nat) (c : Option Char) : (VmState.mk s r p c).rstack = r := rfl

@[simp] theorem VmState.pc_mk (s : List Function) (r : List (Nat × Nat))
    (p : Nat) (c : Option Char) : (VmState.mk s r p c).pc = p := rfl

@[simp] theorem VmState.curChar_mk (s : List Function) (r : List (Nat × Nat))
    (p : Nat) (c : Option Char) : (VmState.mk s r p c).curChar = c := rfl

/-- Lemma: `invoke` preserves state well-formedness. -/
theorem invoke_good {code : List OpCode} {e e' : Exec} {r : Option Function}
    (hg : GoodS code e.vm) (h : invoke code e = .ok (r, e')) :
    GoodS code e'.vm := by
  rcases e with ⟨⟨stack, rstack, pc, cc⟩, inp, out⟩
  rcases stack with _ | ⟨arg, _ | ⟨fn, rest⟩⟩
  · simp [invoke] at h
  · simp [invoke] at h
  have hg' : (∀ f ∈ arg :: fn :: rest, GoodF code f) ∧ rstackOk rstack = true := hg
  obtain ⟨hstack, hrs⟩ := hg'
  rw [List.forall_mem_cons, List.forall_mem_cons] at hstack
  obtain ⟨harg, hfn, hrest⟩ := hstack
  cases fn with
  | I =>
    simp only [invoke, Except.ok.injEq, Prod.mk.injEq] at h
    obtain ⟨-, rfl⟩ := h
    simp only [Exec.vm_mk]
    exact invokeAdvance_good ⟨List.forall_mem_cons.mpr ⟨harg, hrest⟩, hrs⟩
  | K =>
    simp only [invoke, Except.ok.injEq, Prod.mk.injEq] at h
    obtain ⟨-, rfl⟩ := h
    simp only [Exec.vm_mk]
    exact invokeAdvance_good ⟨List.forall_mem_cons.mpr ⟨.K1 harg, hrest⟩, hrs⟩
  | K1 v =>
    simp only [invoke, Except.ok.injEq, Prod.mk.injEq] at h
    obtain ⟨-, rfl⟩ := h
    simp only [Exec.vm_mk]
    exact invokeAdvance_good ⟨List.forall_mem_cons.mpr ⟨hfn.K1_inv, hrest⟩, hrs⟩
  | S =>
    simp only [invoke, Except.ok.injEq, Prod.mk.injEq] at h
    obtain ⟨-, rfl⟩ := h
    simp only [Exec.vm_mk]
    exact invokeAdvance_good ⟨List.forall_mem_cons.mpr ⟨.S1 harg, hrest⟩, hrs⟩
  | S1 v =>
    simp only [invoke, Except.ok.injEq, Prod.mk.injEq] at h
    obtain ⟨-, rfl⟩ := h
    simp only [Exec.vm_mk]
    exact invokeAdvance_good
      ⟨List.forall_mem_cons.mpr ⟨.S2 hfn.S1_inv harg, hrest⟩, hrs⟩
  | S2 v1 v2 =>
    obtain ⟨hv1, hv2⟩ := hfn.S2_inv
    rcases hpr : push_rstack rstack (pc + 1) S2_END with _ | r₁
    · simp [invoke, hpr] at h
    simp only [invoke, hpr, Except.ok.injEq, Prod.mk.injEq] at h
    obtain ⟨-, rfl⟩ := h
    simp only [Exec.vm_mk]
    refine invokeAdvance_good ?_
    refine ⟨?_, push_rstack_rstackOk hrs hpr⟩
    simp only [VmState.stack_mk, List.forall_mem_cons]
    exact ⟨harg, hv1, .D1A hv2 harg, harg, hv2, hrest⟩
  | V =>
    simp only [invoke, Except.ok.injEq, Prod.mk.injEq] at h
    obtain ⟨-, rfl⟩ := h
    simp only [Exec.vm_mk]
    exact invokeAdvance_good ⟨List.forall_mem_cons.mpr ⟨.V, hrest⟩, hrs⟩
  | D =>
    simp only [invoke, Except.ok.injEq, Prod.mk.injEq] at h
    obtain ⟨-, rfl⟩ := h
    simp only [Exec.vm_mk]
    exact invokeAdvance_good ⟨List.forall_mem_cons.mpr ⟨.D1F harg, hrest⟩, hrs⟩
  | D1 ex =>
    cases ex with
    | Promise a =>
      obtain ⟨offset, hget⟩ := hfn.D1P_inv
      by_cases ha : a = 0
      · simp [invoke, ha] at h
      by_cases ha2 : a < 2
      · simp [invoke, ha, hget, ha2] at h
      rcases hpr1 : push_rstack rstack (pc + 1) D1_PROMISE_END with _ | r₁
      · simp [invoke, ha, hget, ha2, hpr1] at h
      rcases hpr2 : push_rstack r₁ D1_PROMISE_START (a - 2 + offset) with _ | r₂
      · simp [invoke, ha, hget, ha2, hpr1, hpr2] at h
      simp only [invoke, ha, hget, ha2, hpr1, hpr2, if_false, ite_false,
        Except.ok.injEq, Prod.mk.injEq] at h
      obtain ⟨-, rfl⟩ := h
      simp only [Exec.vm_mk]
      exact invokeAdvance_good
        ⟨List.forall_mem_cons.mpr ⟨harg, hrest⟩,
          push_rstack_rstackOk (push_rstack_rstackOk hrs hpr1) hpr2⟩
    | Function f =>
      simp only [invoke, Except.ok.injEq, Prod.mk.injEq] at h
      obtain ⟨-, rfl⟩ := h
      simp only [Exec.vm_mk]
      exact invokeAdvance_good
        ⟨List.forall_mem_cons.mpr ⟨harg,
          List.forall_mem_cons.mpr ⟨hfn.D1F_inv, hrest⟩⟩, hrs⟩
    | Application op1 op2 =>
      obtain ⟨hop1, hop2⟩ := hfn.D1A_inv
      rcases hpr : push_rstack rstack (pc + 1) D1_APPLICATION_END with _ | r₁
      · simp [invoke, hpr] at h
      simp only [invoke, hpr, Except.ok.injEq, Prod.mk.injEq] at h
      obtain ⟨-, rfl⟩ := h
      simp only [Exec.vm_mk]
      refine invokeAdvance_good ?_
      refine ⟨?_, push_rstack_rstackOk hrs hpr⟩
      simp only [VmState.stack_mk, List.forall_mem_cons]
      exact ⟨hop2, hop1, harg, hrest⟩
  | C =>
    simp only [invoke, Except.ok.injEq, Prod.mk.injEq] at h
    obtain ⟨-, rfl⟩ := h
    simp only [Exec.vm_mk]
    exact invokeAdvance_good
      ⟨List.forall_mem_cons.mpr ⟨.C1 hrest hrs,
        List.forall_mem_cons.mpr ⟨harg, hrest⟩⟩, hrs⟩
  | C1 st =>
    obtain ⟨s, r₁, p, c₁⟩ := st
    obtain ⟨hs, hr₁⟩ := hfn.C1_inv
    simp only [invoke, Except.ok.injEq, Prod.mk.injEq] at h
    obtain ⟨-, rfl⟩ := h
    simp only [Exec.vm_mk]
    exact invokeAdvance_good ⟨List.forall_mem_cons.mpr ⟨harg, hs⟩, hr₁⟩
  | E =>
    simp only [invoke, Except.ok.injEq, Prod.mk.injEq] at h
    obtain ⟨-, rfl⟩ := h
    simp only [Exec.vm_mk]
    exact ⟨hrest, hrs⟩
  | Read =>
    rcases inp with _ | ⟨ch, tl⟩
    · simp only [invoke, Except.ok.injEq, Prod.mk.injEq] at h
      obtain ⟨-, rfl⟩ := h
      simp only [Exec.vm_mk]
      exact invokeAdvance_good
        ⟨List.forall_mem_cons.mpr ⟨.V, List.forall_mem_cons.mpr ⟨harg, hrest⟩⟩, hrs⟩
    · simp only [invoke, Except.ok.injEq, Prod.mk.injEq] at h
      obtain ⟨-, rfl⟩ := h
      simp only [Exec.vm_mk]
      exact invokeAdvance_good
        ⟨List.forall_mem_cons.mpr ⟨.I, List.forall_mem_cons.mpr ⟨harg, hrest⟩⟩, hrs⟩
  | Reprint =>
    rcases cc with _ | ch
    · simp only [invoke, Except.ok.injEq, Prod.mk.injEq] at h
      obtain ⟨-, rfl⟩ := h
      simp only [Exec.vm_mk]
      exact invokeAdvance_good
        ⟨List.forall_mem_cons.mpr ⟨.V, List.forall_mem_cons.mpr ⟨harg, hrest⟩⟩, hrs⟩
    · simp only [invoke, Except.ok.injEq, Prod.mk.injEq] at h
      obtain ⟨-, rfl⟩ := h
      simp only [Exec.vm_mk]
      exact invokeAdvance_good
        ⟨List.forall_mem_cons.mpr ⟨.Dot, List.forall_mem_cons.mpr ⟨harg, hrest⟩⟩, hrs⟩
  | Compare ch =>
    simp only [invoke, Except.ok.injEq, Prod.mk.injEq] at h
    obtain ⟨-, rfl⟩ := h
    simp only [Exec.vm_mk]
    refine invokeAdvance_good ⟨?_, hrs⟩
    refine List.forall_mem_cons.mpr ⟨?_, List.forall_mem_cons.mpr ⟨harg, hrest⟩⟩
    split <;> constructor
  | Dot ch =>
    simp only [invoke, Except.ok.injEq, Prod.mk.injEq] at h
    obtain ⟨-, rfl⟩ := h
    simp only [Exec.vm_mk]
    exact invokeAdvance_good ⟨List.forall_mem_cons.mpr ⟨harg, hrest⟩, hrs⟩

/-- Lemma: `execOpcode` preserves state well-formedness, provided the opcode
being executed really is the one fetched at the current program counter
(this is what makes a promise freshly created by `CheckSuspend` point
just past a `CheckSuspend` opcode). -/
theorem execOpcode_good {code : List OpCode} {op : OpCode} {e e₁ : Exec}
    (hg : GoodS code e.vm) (hfetch : code[e.vm.pc]? = some op)
    (h : execOpcode code op e = .ok (.next e₁)) : GoodS code e₁.vm := by
  rcases e with ⟨⟨stack, rstack, pc, cc⟩, inp, out⟩
  have hg' : (∀ f ∈ stack, GoodF code f) ∧ rstackOk rstack = true := hg
  obtain ⟨hstack, hrs⟩ := hg'
  simp only [Exec.vm_mk, VmState.pc_mk] at hfetch
  cases op with
  | Placeholder => simp [execOpcode] at h
  | PushImmediate c =>
    simp only [execOpcode, Except.ok.injEq, StepResult.next.injEq] at h
    obtain rfl := h
    exact ⟨List.forall_mem_cons.mpr ⟨goodF_from_combinator code c, hstack⟩, hrs⟩
  | Rot =>
    rcases stack with _ | ⟨f1, _ | ⟨f2, _ | ⟨f3, rest⟩⟩⟩
    · simp [execOpcode] at h
    · simp [execOpcode] at h
    · simp [execOpcode] at h
    rw [List.forall_mem_cons, List.forall_mem_cons, List.forall_mem_cons] at hstack
    obtain ⟨h1, h2, h3, hrest⟩ := hstack
    simp only [execOpcode, Except.ok.injEq, StepResult.next.injEq] at h
    obtain rfl := h
    exact ⟨by simp only [VmState.stack_mk, List.forall_mem_cons]; exact ⟨h2, h3, h1, hrest⟩, hrs⟩
  | Swap =>
    rcases stack with _ | ⟨f1, _ | ⟨f2, rest⟩⟩
    · simp [execOpcode] at h
    · simp [execOpcode] at h
    rw [List.forall_mem_cons, List.forall_mem_cons] at hstack
    obtain ⟨h1, h2, hrest⟩ := hstack
    simp only [execOpcode, Except.ok.injEq, StepResult.next.injEq] at h
    obtain rfl := h
    exact ⟨by simp only [VmState.stack_mk, List.forall_mem_cons]; exact ⟨h2, h1, hrest⟩, hrs⟩
  | CheckSuspend offset =>
    rcases stack with _ | ⟨top, rest⟩
    · simp [execOpcode] at h
    rw [List.forall_mem_cons] at hstack
    obtain ⟨htop, hrest⟩ := hstack
    by_cases hd : top.isD
    · simp only [execOpcode, hd, if_true, Except.ok.injEq, StepResult.next.injEq] at h
      obtain rfl := h
      refine ⟨?_, hrs⟩
      simp only [VmState.stack_mk, List.forall_mem_cons]
      refine ⟨.D1P ⟨offset, ?_⟩, hrest⟩
      simpa using hfetch
    · simp only [execOpcode, hd, if_false, Bool.false_eq_true, ite_false,
        Except.ok.injEq, StepResult.next.injEq] at h
      obtain rfl := h
      exact ⟨List.forall_mem_cons.mpr ⟨htop, hrest⟩, hrs⟩
  | CheckDynamicSuspend offset =>
    rcases stack with _ | ⟨operator, stack₁⟩
    · simp [execOpcode] at h
    rw [List.forall_mem_cons] at hstack
    obtain ⟨hop, hstack₁⟩ := hstack
    by_cases hd : operator.isD
    · rcases stack₁ with _ | ⟨prom, _ | ⟨x1, _ | ⟨x2, rest⟩⟩⟩
      · simp [execOpcode, hd] at h
      · simp [execOpcode, hd] at h
      · simp [execOpcode, hd] at h
      rw [List.forall_mem_cons, List.forall_mem_cons, List.forall_mem_cons] at hstack₁
      obtain ⟨hprom, -, -, hrest⟩ := hstack₁
      simp only [execOpcode, hd, if_true, Except.ok.injEq, StepResult.next.injEq] at h
      obtain rfl := h
      exact ⟨List.forall_mem_cons.mpr ⟨hprom, hrest⟩, hrs⟩
    · rcases stack₁ with _ | ⟨prom, rest⟩
      · simp [execOpcode, hd] at h
      rw [List.forall_mem_cons] at hstack₁
      obtain ⟨-, hrest⟩ := hstack₁
      simp only [execOpcode, hd, if_false, Bool.false_eq_true, ite_false,
        Except.ok.injEq, StepResult.next.injEq] at h
      obtain rfl := h
      exact ⟨List.forall_mem_cons.mpr ⟨hop, hrest⟩, hrs⟩
  | Invoke =>
    rcases hi : invoke code ⟨.mk stack rstack pc cc, inp, out⟩ with msg | r
    · simp [execOpcode, hi] at h
    rcases r with ⟨_ | f, e'⟩
    · simp only [execOpcode, hi, Except.ok.injEq, StepResult.next.injEq] at h
      obtain rfl := h
      exact invoke_good hg hi
    · simp [execOpcode, hi] at h
  | Finish =>
    rcases stack with _ | ⟨v, rest⟩
    · simp [execOpcode] at h
    · simp [execOpcode] at h

/-- Here `advancePc` only changes the program counter, so it preserves state
well-formedness. -/
theorem advancePc_good {code : List OpCode} {op : OpCode} {vm : VmState}
    (h : GoodS code vm) : GoodS code (advancePc op vm) := by
  rcases vm with ⟨s, r, pc, cc⟩
  cases op <;> exact h

/-- The auto-return check preserves state well-formedness. -/
theorem autoReturn_good {code : List OpCode} {vm vm' : VmState}
    (hg : GoodS code vm) (h : autoReturn vm = .ok vm') : GoodS code vm' := by
  rcases vm with ⟨s, _ | ⟨⟨to_, from_⟩, rrest⟩, pc, cc⟩
  · simp [autoReturn] at h
  have hg' : (∀ f ∈ s, GoodF code f) ∧ rstackOk ((to_, from_) :: rrest) = true := hg
  obtain ⟨hs, hr⟩ := hg'
  simp only [autoReturn] at h
  split at h
  · obtain rfl := Except.ok.inj h
    exact ⟨hs, rstackOk_tail hr⟩
  · obtain rfl := Except.ok.inj h
    exact ⟨hs, hr⟩

/-- The fetch-execute-advance phase of a loop iteration preserves state
well-formedness. -/
theorem execPhase_good {code : List OpCode} {e e₁ : Exec}
    (hg : GoodS code e.vm) (h : execPhase code e = .ok (.next e₁)) :
    GoodS code e₁.vm := by
  unfold execPhase at h
  split at h
  · simp at h
  next op hfetch =>
    split at h
    · simp at h
    · simp at h
    next e' hx =>
      simp only [Except.ok.injEq, StepResult.next.injEq] at h
      obtain rfl := h
      have he' := execOpcode_good hg hfetch hx
      rcases e' with ⟨vm', inp', out'⟩
      exact advancePc_good he'

/-- A full loop iteration (`step`) preserves state well-formedness. -/
theorem step_good {code : List OpCode} {e e' : Exec}
    (hg : GoodS code e.vm) (h : step code e = .ok (.next e')) :
    GoodS code e'.vm := by
  unfold step at h
  split at h
  · simp at h
  · simp at h
  next e₁ hx =>
    split at h
    · simp at h
    next vm' ha =>
      simp only [Except.ok.injEq, StepResult.next.injEq] at h
      obtain rfl := h
      have h₁ := execPhase_good hg hx
      simp only [Exec.vm_mk]
      exact autoReturn_good h₁ ha

/-- Reachability between execution states: the reflexive-transitive
closure of successful, non-terminating loop iterations. -/
inductive Reaches (code : List OpCode) : Exec → Exec → Prop where
  | refl (e : Exec) : Reaches code e e
  | tail {e e₁ e₂ : Exec} : Reaches code e e₁ → step code e₁ = .ok (.next e₂) →
      Reaches code e e₂

/-- The initial state of `run_vm` is well-formed. -/
theorem initExec_good (code : List OpCode) (entry_point : Nat)
    (input : List Char) : GoodS code (initExec code entry_point input).vm := by
  refine ⟨?_, rfl⟩
  intro f hf
  simp [initExec] at hf

/-- Well-formedness is an invariant of every reachable state. -/
theorem reaches_good {code : List OpCode} {e e' : Exec}
    (hg : GoodS code e.vm) (hr : Reaches code e e') : GoodS code e'.vm := by
  induction hr with
  | refl => exact hg
  | tail _ hstep ih => exact step_good ih hstep

/-! ## Claims -/

/-- Claim C1: `push_rstack(to, from)` coalesces instead of pushing whenever
the current top frame's `from` equals `to`, replacing the top frame
`(top.to, top.from)` with `(top.to, from)`; otherwise it pushes
`(to, from)`; and after every `push_rstack` (performed, as at every call
site, on a return stack whose two topmost frames already satisfy the TCO
invariant) the two topmost return-stack frames satisfy
`rstack[-2].from ≠ rstack[-1].to`. -/
theorem claim1_push_rstack_tco (thenTo thenFrom : Nat) (rest : List (Nat × Nat))
    (to_ from_ : Nat)
    (hpre : topTwoOk ((thenTo, thenFrom) :: rest) = true) :
    push_rstack ((thenTo, thenFrom) :: rest) to_ from_ =
      some (if thenFrom = to_ then (thenTo, from_) :: rest
            else (to_, from_) :: (thenTo, thenFrom) :: rest) ∧
    ∀ r', push_rstack ((thenTo, thenFrom) :: rest) to_ from_ = some r' →
      topTwoOk r' = true := by
  constructor
  · by_cases hc : thenFrom = to_ <;> simp [push_rstack, hc]
  · intro r' h
    by_cases hc : thenFrom = to_
    · simp only [push_rstack, hc, if_true, Option.some.injEq] at h
      subst h
      match rest with
      | [] => rfl
      | b :: rest' => exact hpre
    · simp only [push_rstack, hc, if_false, ite_false, Option.some.injEq] at h
      subst h
      simpa [topTwoOk, bne_iff_ne] using hc

theorem claim1_push_rstack_tco_witness :
    (push_rstack [(3, 4), (7, 8)] 4 9 = some [(3, 9), (7, 8)] ∧
      ∀ r', push_rstack [(3, 4), (7, 8)] 4 9 = some r' → topTwoOk r' = true) ∧
    (push_rstack [(3, 4), (7, 8)] 5 9 = some [(5, 9), (3, 4), (7, 8)] ∧
      ∀ r', push_rstack [(3, 4), (7, 8)] 5 9 = some r' → topTwoOk r' = true) := by
  constructor
  · have h := claim1_push_rstack_tco 3 4 [(7, 8)] 4 9 (by decide)
    simpa using h
  · have h := claim1_push_rstack_tco 3 4 [(7, 8)] 5 9 (by decide)
    simpa using h

/-- Claim C3: Executing `CheckSuspend(off)` when the top of the operand stack
is the `D` primitive pops that `D`, pushes the promise
`D1(Promise(pc + 1))` and adds `off` to the program counter; in every
other case it leaves the operand stack unchanged and adds 1 to the program
counter.  (`advancePc` never touches the counter again for
`CheckSuspend`.) -/
theorem claim3_check_suspend (code : List OpCode) (offset : Nat)
    (top : Function) (rest : List Function) (rstack : List (Nat × Nat))
    (pc : Nat) (cc : Option Char) (inp out : List Char) :
    (top = .D →
      execOpcode code (.CheckSuspend offset)
          ⟨.mk (top :: rest) rstack pc cc, inp, out⟩ =
        .ok (.next ⟨.mk (.D1 (.Promise (pc + 1)) :: rest) rstack (pc + offset) cc,
          inp, out⟩)) ∧
    (top ≠ .D →
      execOpcode code (.CheckSuspend offset)
          ⟨.mk (top :: rest) rstack pc cc, inp, out⟩ =
        .ok (.next ⟨.mk (top :: rest) rstack (pc + 1) cc, inp, out⟩)) ∧
    (∀ vm, advancePc (.CheckSuspend offset) vm = vm) := by
  refine ⟨?_, ?_, fun vm => rfl⟩
  · intro h
    subst h
    rfl
  · intro h
    simp [execOpcode, Function.isD_iff, h]

theorem claim3_check_suspend_witness :
    execOpcode [] (.CheckSuspend 3) ⟨.mk [.D] [] 10 none, [], []⟩ =
      .ok (.next ⟨.mk [.D1 (.Promise 11)] [] 13 none, [], []⟩) ∧
    execOpcode [] (.CheckSuspend 3) ⟨.mk [.I] [] 10 none, [], []⟩ =
      .ok (.next ⟨.mk [.I] [] 11 none, [], []⟩) :=
  ⟨(claim3_check_suspend [] 3 .D [] [] 10 none [] []).1 rfl,
   (claim3_check_suspend [] 3 .I [] [] 10 none [] []).2.1
     (fun h => Function.noConfusion h)⟩

/-- Claim C5: When `Invoke` applies the `D` primitive (reached at runtime
rather than intercepted by `CheckSuspend`) to an argument `arg`, it pushes
`D1(Function(arg))` (and the program counter advances past the `Invoke`);
consequently the program `` ```sddk `` evaluates to
`K1(D1(Function(K)))`. -/
theorem claim5_invoke_d :
    (∀ (code : List OpCode) (arg : Function) (rest : List Function)
        (rstack : List (Nat × Nat)) (pc : Nat) (cc : Option Char)
        (inp out : List Char),
      invoke code ⟨.mk (arg :: .D :: rest) rstack pc cc, inp, out⟩ =
        .ok (none, ⟨.mk (.D1 (.Function arg) :: rest) rstack (pc + 1) cc,
          inp, out⟩)) ∧
    parse_compile_run "```sddk" [] 1000 =
      .ok (some (.K1 (.D1 (.Function .K)))) :=
  ⟨fun _ _ _ _ _ _ _ _ => rfl, rfl⟩

/-- Claim C6: Applying a captured continuation `C1` resumes evaluation at the
capture site (the program counter becomes the snapshot's pc plus one, i.e.
just past the `Invoke` at which `C` was applied) with the continuation's
argument on top of the restored operand stack — i.e. as the result of the
original application of `C`; in particular `` ``cii `` evaluates to
`I`. -/
theorem claim6_continuation_roundtrip :
    (∀ (code : List OpCode) (s : List Function) (r : List (Nat × Nat))
        (p : Nat) (c' : Option Char) (arg : Function) (rest : List Function)
        (rstack : List (Nat × Nat)) (pc : Nat) (cc : Option Char)
        (inp out : List Char),
      invoke code ⟨.mk (arg :: .C1 (.mk s r p c') :: rest) rstack pc cc,
          inp, out⟩ =
        .ok (none, ⟨.mk (arg :: s) r (p + 1) cc, inp, out⟩)) ∧
    parse_compile_run "``cii" [] 1000 = .ok (some .I) :=
  ⟨fun _ _ _ _ _ _ _ _ _ _ _ _ => rfl, rfl⟩

/-- Claim C8: When `Invoke` applies `Read` and a code point is read from
standard input, `cur_char` is set to that code point and `I` is pushed
above the pushed argument; at end-of-file, `V` is pushed instead and
`cur_char` is left empty (`None`); in both cases the program counter is
not advanced, so the same `Invoke` opcode re-fires to apply the pushed
`I` or `V` result. -/
theorem claim8_read :
    (∀ (code : List OpCode) (arg : Function) (rest : List Function)
        (rstack : List (Nat × Nat)) (pc : Nat) (cc : Option Char)
        (ch : Char) (tl out : List Char),
      invoke code ⟨.mk (arg :: .Read :: rest) rstack pc cc, ch :: tl, out⟩ =
        .ok (none, ⟨.mk (.I :: arg :: rest) rstack pc (some ch), tl, out⟩)) ∧
    (∀ (code : List OpCode) (arg : Function) (rest : List Function)
        (rstack : List (Nat × Nat)) (pc : Nat) (cc : Option Char)
        (out : List Char),
      invoke code ⟨.mk (arg :: .Read :: rest) rstack pc cc, [], out⟩ =
        .ok (none, ⟨.mk (.V :: arg :: rest) rstack pc none, [], out⟩)) :=
  ⟨fun _ _ _ _ _ _ _ _ _ => rfl, fun _ _ _ _ _ _ _ => rfl⟩

/-- Claim C9: When `Invoke` applies `Compare(c)` to an argument `arg`, it
pushes `arg` and then pushes `I` if `cur_char = Some(c)` and `V`
otherwise; `Compare` is not among the retry-`Invoke` branches, so the
program counter advances by 1 past the `Invoke` opcode. -/
theorem claim9_compare :
    (∀ (code : List OpCode) (ch : Char) (arg : Function)
        (rest : List Function) (rstack : List (Nat × Nat)) (pc : Nat)
        (cc : Option Char) (inp out : List Char), cc = some ch →
      invoke code ⟨.mk (arg :: .Compare ch :: rest) rstack pc cc, inp, out⟩ =
        .ok (none, ⟨.mk (.I :: arg :: rest) rstack (pc + 1) cc, inp, out⟩)) ∧
    (∀ (code : List OpCode) (ch : Char) (arg : Function)
        (rest : List Function) (rstack : List (Nat × Nat)) (pc : Nat)
        (cc : Option Char) (inp out : List Char), cc ≠ some ch →
      invoke code ⟨.mk (arg :: .Compare ch :: rest) rstack pc cc, inp, out⟩ =
        .ok (none, ⟨.mk (.V :: arg :: rest) rstack (pc + 1) cc, inp, out⟩)) := by
  constructor
  · intro code ch arg rest rstack pc cc inp out h
    subst h
    simp [invoke, invokeAdvance]
  · intro code ch arg rest rstack pc cc inp out h
    simp [invoke, invokeAdvance, h]

theorem claim9_compare_witness :
    invoke [] ⟨.mk [.K, .Compare 'a'] [] 3 (some 'a'), [], []⟩ =
      .ok (none, ⟨.mk [.I, .K] [] 4 (some 'a'), [], []⟩) ∧
    invoke [] ⟨.mk [.K, .Compare 'a'] [] 3 (some 'b'), [], []⟩ =
      .ok (none, ⟨.mk [.V, .K] [] 4 (some 'b'), [], []⟩) :=
  ⟨claim9_compare.1 [] 'a' .K [] [] 3 (some 'a') [] [] rfl,
   claim9_compare.2 [] 'a' .K [] [] 3 (some 'b') [] [] (by decide)⟩

/-- Claim C10: Invoking a continuation `C1(snap)` with argument `arg`
replaces only the operand stack (with the snapshot's stack plus `arg`
pushed on top), the return stack, and the program counter; the `cur_char`
input latch is not restored from the snapshot and keeps whatever value it
had immediately before the continuation was invoked, even though the
snapshot stores its own copy of `cur_char`. -/
theorem claim10_c1_keeps_curchar (code : List OpCode) (s : List Function)
    (r : List (Nat × Nat)) (p : Nat) (snapCc : Option Char) (arg : Function)
    (rest : List Function) (rstack : List (Nat × Nat)) (pc : Nat)
    (cc : Option Char) (inp out : List Char) :
    ∃ e', invoke code
        ⟨.mk (arg :: .C1 (.mk s r p snapCc) :: rest) rstack pc cc, inp, out⟩ =
        .ok (none, e') ∧
      e'.vm.stack = arg :: s ∧ e'.vm.rstack = r ∧ e'.vm.pc = p + 1 ∧
      e'.vm.curChar = cc ∧ e'.input = inp ∧ e'.output = out :=
  ⟨_, rfl, rfl, rfl, rfl, rfl, rfl, rfl⟩

/-- The fixed microcode prologue contains no `CheckSuspend`, so any
address whose predecessor holds a `CheckSuspend` lies in user code
(`a - 1 ≥ 10`, i.e. `a ≥ 11`) whenever the code array starts with the
prologue. -/
theorem checkSuspend_addr_ge {code : List OpCode} {a offset : Nat}
    (htake : code.take 10 = S2_CODE ++ D1_PROMISE_CODE ++ D1_APPLICATION_CODE)
    (hget : code[a - 1]? = some (.CheckSuspend offset)) : 11 ≤ a := by
  by_contra hlt
  push_neg at hlt
  have hk : a - 1 < 10 := by omega
  have h1 : (code.take 10)[a - 1]? = code[a - 1]? :=
    List.getElem?_take_of_lt hk
  rw [htake, hget] at h1
  revert h1
  generalize a - 1 = k at hk
  interval_cases k <;> simp [S2_CODE, D1_PROMISE_CODE, D1_APPLICATION_CODE]

/-- Claim C4: In every reachable state the operand stack and all continuation
snapshots are well-formed (first conjunct); when `Invoke` applies a
`D1(Promise(at))` from a well-formed state whose code array starts with
the fixed microcode prologue, `code[at−1]` is necessarily a
`CheckSuspend(off)` and the handler pushes `arg`, pushes return frames
`(pc+1, D1_PROMISE_END)` and `(D1_PROMISE_START, at−2+off)` via
`push_rstack`, and sets `pc = at` (second conjunct); and whenever
`code[at−1]` is not a `CheckSuspend`, the branch aborts (third
conjunct). -/
theorem claim4_promise_invoke (code : List OpCode) :
    (∀ (entry_point : Nat) (input : List Char) (e : Exec),
      Reaches code (initExec code entry_point input) e → GoodS code e.vm) ∧
    (∀ (a : Nat) (arg : Function) (rest : List Function)
        (rstack : List (Nat × Nat)) (pc : Nat) (cc : Option Char)
        (inp out : List Char),
      code.take 10 = S2_CODE ++ D1_PROMISE_CODE ++ D1_APPLICATION_CODE →
      GoodS code (.mk (arg :: .D1 (.Promise a) :: rest) rstack pc cc) →
      rstack ≠ [] →
      ∃ offset r₁ r₂,
        code[a - 1]? = some (.CheckSuspend offset) ∧ 11 ≤ a ∧
        push_rstack rstack (pc + 1) D1_PROMISE_END = some r₁ ∧
        push_rstack r₁ D1_PROMISE_START (a - 2 + offset) = some r₂ ∧
        invoke code ⟨.mk (arg :: .D1 (.Promise a) :: rest) rstack pc cc,
            inp, out⟩ =
          .ok (none, ⟨.mk (arg :: rest) r₂ a cc, inp, out⟩)) ∧
    (∀ (a : Nat) (arg : Function) (rest : List Function)
        (rstack : List (Nat × Nat)) (pc : Nat) (cc : Option Char)
        (inp out : List Char),
      (∀ offset, code[a - 1]? ≠ some (.CheckSuspend offset)) →
      ∃ msg, invoke code ⟨.mk (arg :: .D1 (.Promise a) :: rest) rstack pc cc,
          inp, out⟩ = .error msg) := by
  refine ⟨?_, ?_, ?_⟩
  · intro entry_point input e hr
    exact reaches_good (initExec_good code entry_point input) hr
  · intro a arg rest rstack pc cc inp out htake hg hne
    have hg' : (∀ f ∈ arg :: Function.D1 (.Promise a) :: rest, GoodF code f) ∧
        rstackOk rstack = true := hg
    obtain ⟨hstack, -⟩ := hg'
    rw [List.forall_mem_cons, List.forall_mem_cons] at hstack
    obtain ⟨-, hfn, -⟩ := hstack
    obtain ⟨offset, hget⟩ := hfn.D1P_inv
    have ha : 11 ≤ a := checkSuspend_addr_ge htake hget
    obtain ⟨r₁, hpr1⟩ := push_rstack_isSome hne (pc + 1) D1_PROMISE_END
    obtain ⟨r₂, hpr2⟩ :=
      push_rstack_isSome (push_rstack_ne_nil hpr1) D1_PROMISE_START
        (a - 2 + offset)
    refine ⟨offset, r₁, r₂, hget, ha, hpr1, hpr2, ?_⟩
    have ha0 : ¬a = 0 := by omega
    have ha2 : ¬a < 2 := by omega
    simp [invoke, invokeAdvance, ha0, ha2, hget, hpr1, hpr2]
  · intro a arg rest rstack pc cc inp out habort
    by_cases ha : a = 0
    · exact ⟨"attempt to subtract with overflow", by simp [invoke, ha]⟩
    rcases hget : code[a - 1]? with _ | op
    · exact ⟨"index out of bounds", by simp [invoke, ha, hget]⟩
    rcases op with _ | c | _ | _ | offset | offset | _ | _
    · exact ⟨"promise does not point to a CheckSuspend opcode",
        by simp [invoke, ha, hget]⟩
    · exact ⟨"promise does not point to a CheckSuspend opcode",
        by simp [invoke, ha, hget]⟩
    · exact ⟨"promise does not point to a CheckSuspend opcode",
        by simp [invoke, ha, hget]⟩
    · exact ⟨"promise does not point to a CheckSuspend opcode",
        by simp [invoke, ha, hget]⟩
    · exact absurd hget (habort offset)
    · exact ⟨"promise does not point to a CheckSuspend opcode",
        by simp [invoke, ha, hget]⟩
    · exact ⟨"promise does not point to a CheckSuspend opcode",
        by simp [invoke, ha, hget]⟩
    · exact ⟨"promise does not point to a CheckSuspend opcode",
        by simp [invoke, ha, hget]⟩

/-- A small concrete code array for exercising `claim4_promise_invoke`:
the microcode prologue followed by a compiled application whose
`CheckSuspend` sits at index 11. -/
def c4code : List OpCode :=
  S2_CODE ++ D1_PROMISE_CODE ++ D1_APPLICATION_CODE ++
    [.PushImmediate .I, .CheckSuspend 3, .PushImmediate .I, .Invoke, .Finish]

theorem claim4_promise_invoke_witness :
    GoodS c4code (initExec c4code 10 []).vm ∧
    (∃ offset r₁ r₂,
      c4code[12 - 1]? = some (.CheckSuspend offset) ∧ 11 ≤ 12 ∧
      push_rstack [(15, 15)] (13 + 1) D1_PROMISE_END = some r₁ ∧
      push_rstack r₁ D1_PROMISE_START (12 - 2 + offset) = some r₂ ∧
      invoke c4code ⟨.mk [.K, .D1 (.Promise 12)] [(15, 15)] 13 none, [], []⟩ =
        .ok (none, ⟨.mk [.K] r₂ 12 none, [], []⟩)) ∧
    (∃ msg, invoke c4code ⟨.mk [.K, .D1 (.Promise 1)] [(15, 15)] 13 none,
        [], []⟩ = .error msg) := by
  obtain ⟨h1, h2, h3⟩ := claim4_promise_invoke c4code
  refine ⟨h1 10 [] _ (.refl _), ?_, ?_⟩
  · refine h2 12 .K [] [(15, 15)] 13 none [] [] rfl ⟨?_, rfl⟩ (by simp)
    intro f hf
    simp only [VmState.stack_mk, List.mem_cons, List.not_mem_nil, or_false] at hf
    rcases hf with rfl | rfl
    · exact .K
    · exact .D1P ⟨3, rfl⟩
  · refine h3 1 .K [] [(15, 15)] 13 none [] [] ?_
    intro offset h
    simp [c4code, S2_CODE, D1_PROMISE_CODE, D1_APPLICATION_CODE] at h

/-- Claim C7: Well-formedness (including the pairwise TCO invariant on the
return stack) holds in every reachable state and is preserved through the
fetch-execute-advance phase of each loop iteration; and from any
well-formed state in which the auto-return check fires (the program
counter equals the `from` of the top frame), popping that frame and
jumping to its `to` yields a program counter different from the `from` of
the new top frame — so the single, non-looping auto-return check never
leaves a pending return unserviced. -/
theorem claim7_auto_return_once (code : List OpCode) :
    (∀ (entry_point : Nat) (input : List Char) (e : Exec),
      Reaches code (initExec code entry_point input) e → GoodS code e.vm) ∧
    (∀ e e₁ : Exec, GoodS code e.vm → execPhase code e = .ok (.next e₁) →
      GoodS code e₁.vm) ∧
    (∀ (s : List Function) (to_ from_ to₂ from₂ : Nat)
        (rrest : List (Nat × Nat)) (pc : Nat) (cc : Option Char),
      GoodS code (.mk s ((to_, from_) :: (to₂, from₂) :: rrest) pc cc) →
      pc = from_ →
      autoReturn (.mk s ((to_, from_) :: (to₂, from₂) :: rrest) pc cc) =
        .ok (.mk s ((to₂, from₂) :: rrest) to_ cc) ∧ to_ ≠ from₂) := by
  refine ⟨?_, ?_, ?_⟩
  · intro entry_point input e hr
    exact reaches_good (initExec_good code entry_point input) hr
  · intro e e₁ hg h
    exact execPhase_good hg h
  · intro s to_ from_ to₂ from₂ rrest pc cc hg hpc
    have hg' : (∀ f ∈ s, GoodF code f) ∧
        rstackOk ((to_, from_) :: (to₂, from₂) :: rrest) = true := hg
    obtain ⟨-, hr⟩ := hg'
    simp only [rstackOk, Bool.and_eq_true, bne_iff_ne] at hr
    exact ⟨by simp [autoReturn, hpc], fun h => hr.1 h.symm⟩

/-- A small concrete code array for exercising `claim7_auto_return_once`. -/
def c7code : List OpCode := [.PushImmediate .I, .Finish]

theorem claim7_auto_return_once_witness :
    GoodS c7code (initExec c7code 0 []).vm ∧
    GoodS c7code (Exec.mk (.mk [.I] [(2, 2)] 1 none) [] []).vm ∧
    (autoReturn (.mk [] [(5, 3), (9, 9)] 3 none) =
      .ok (.mk [] [(9, 9)] 5 none) ∧ (5 : Nat) ≠ 9) := by
  obtain ⟨h1, h2, h3⟩ := claim7_auto_return_once c7code
  refine ⟨h1 0 [] _ (.refl _), ?_, ?_⟩
  · refine h2 (initExec c7code 0 []) (Exec.mk (.mk [.I] [(2, 2)] 1 none) [] [])
      (h1 0 [] _ (.refl _)) rfl
  · refine h3 [] 5 3 9 9 [] 3 none ⟨?_, rfl⟩ rfl
    intro f hf
    simp at hf

/-- Iterate `step` a fixed number of times, requiring every iteration to
continue (neither fail nor terminate). -/
def stepN (code : List OpCode) : Nat → Exec → Except String Exec
  | 0, e => .ok e
  | n + 1, e =>
    match step code e with
    | .error msg => .error msg
    | .ok (.done _) => .error "terminated"
    | .ok (.next e') => stepN code n e'

/-- Prepending one successful loop iteration to a reachability chain. -/
theorem Reaches.head {code : List OpCode} {e e₁ e₂ : Exec}
    (h : step code e = .ok (.next e₁)) (hr : Reaches code e₁ e₂) :
    Reaches code e e₂ := by
  induction hr with
  | refl => exact .tail (.refl _) h
  | tail _ hstep ih => exact .tail ih hstep

/-- Successful bounded iteration implies reachability. -/
theorem stepN_reaches {code : List OpCode} :
    ∀ (n : Nat) (e e' : Exec), stepN code n e = .ok e' → Reaches code e e' := by
  intro n
  induction n with
  | zero =>
    intro e e' h
    obtain rfl := Except.ok.inj h
    exact .refl _
  | succ n ih =>
    intro e e' h
    unfold stepN at h
    split at h
    · simp at h
    · simp at h
    next e₁ hstep => exact Reaches.head hstep (ih e₁ e' h)

/-- The syntax tree of the program `` `?ai ``. -/
def c2tree : SyntaxTree := .Application (.Combinator (.Compare 'a')) (.Combinator .I)

/-- The compiled code of the program `` `?ai ``. -/
def c2code : List OpCode := (compile_toplevel c2tree).1

/-- Claim C2 (refuted by the code; the claim matches the code's own
`debug_assert`s, which this execution violates): the program `` `?ai ``
parses to `c2tree`, whose compiled code has its entry point at 10 and
`Finish` at index 14; after four loop iterations the VM is at `Finish`
with TWO values `[V, I]` on the operand stack (the `Compare` branch pushed
its argument and the comparison result but, unlike `Read` and `Reprint`,
advanced the pc instead of re-firing `Invoke`, so the pushed argument is
never consumed), and running the program returns the top value `V` —
so the operand stack does not contain exactly one value on reaching
`Finish`.  The return stack does still hold only the sentinel
`(15, 15) = (len(code), len(code))`. -/
theorem claim2_finish_not_clean :
    parse_toplevel (charPosIterator "`?ai".data 0 0 false) = .ok c2tree ∧
    compile_toplevel c2tree = (c2code, 10) ∧
    c2code.length = 15 ∧
    Reaches c2code (initExec c2code 10 [])
      ⟨.mk [.V, .I] [(15, 15)] 14 none, [], []⟩ ∧
    c2code[14]? = some .Finish ∧
    ([Function.V, Function.I].length = 2) ∧
    run_vm c2code 10 [] 100 = .ok (some .V) :=
  ⟨rfl, rfl, rfl, stepN_reaches 4 _ _ rfl, rfl, rfl, rfl⟩
